import Mathlib

/-!
Verification of the noms prolly-tree core: ordered collection construction
(map.js / set.js), the sequence cursor (sequence-cursor machinery), the
sequence chunker (Go types/sequence_chunker), the blob reader (blob.js), and
the ordered diff.  Machine integers of the source are modelled as Int/Nat;
promise-returning operations are modelled as pure state-passing functions;
invariant failures (programming errors) are modelled as Option.none.
-/

namespace Noms

/-- Model of the compare function on number values (compare.js): -1, 0, 1. -/
def jsCompare (a b : Int) : Int :=
  if a < b then -1 else if b < a then 1 else 0

/-- One step of a stable ascending sort by key.  The element is inserted in
front of the first element whose key is greater than or equal to its own key,
so earlier input elements precede equal-key elements inserted before them. -/
def keyInsert (key : α → Int) (x : α) : List α → List α
  | [] => [x]
  | y :: ys => if key x ≤ key y then x :: y :: ys else y :: keyInsert key x ys

/-- Model of JS Array.prototype.sort with the comparator comparing keys
(map.js compareKeys / set.js compare).  ECMAScript specifies the result up to
sortedness and stability for a consistent comparator, and a stable sort by a
total preorder is unique, so insertion sort is an exact model. -/
def keySort (key : α → Int) : List α → List α
  | [] => []
  | x :: xs => keyInsert key x (keySort key xs)

/-- Inner loop of removeDuplicateFromOrdered (map.js lines 49-63): `last` is
the element currently occupying the open slot; an element whose key compares
equal overwrites the slot, otherwise a new slot is opened. -/
def removeDupGo (key : α → Int) (last : α) : List α → List α
  | [] => [last]
  | y :: ys =>
    if jsCompare (key last) (key y) = 0 then removeDupGo key y ys
    else last :: removeDupGo key y ys

/-- removeDuplicateFromOrdered from map.js: collapse runs of equal-key
elements, the later element of each run winning. -/
def removeDuplicateFromOrdered (key : α → Int) : List α → List α
  | [] => []
  | x :: xs => removeDupGo key x xs

/-- buildMapData (map.js lines 69-74): copy, sort by key, remove duplicates. -/
def buildMapData (kvs : List (Int × V)) : List (Int × V) :=
  removeDuplicateFromOrdered Prod.fst (keySort Prod.fst kvs)

/-- buildSetData (set.js lines 41-45): copy, sort by value, remove duplicates. -/
def buildSetData (vs : List Int) : List Int :=
  removeDuplicateFromOrdered id (keySort id vs)

/-- The entry for key k in an entry list (first match; keys of a built map are
unique, so this is the map lookup). -/
def findEntry (k : Int) (l : List (Int × V)) : Option (Int × V) :=
  l.find? (fun p => p.1 == k)

/-- The last entry carrying key k, in list order. -/
def lastEntry (k : Int) (l : List (Int × V)) : Option (Int × V) :=
  (l.filter (fun p => p.1 == k)).getLast?

/-- Bisection core of the binary search.  Modelled from the spec: the
binary-search helper used by the cursor is not under src; the spec says it
binary-searches for the smallest index satisfying a monotone predicate.  The
first argument is fuel, a structural bound on the iteration count; it is
called with fuel = hi - lo, which the bisection never exhausts since the
interval width strictly decreases on every step. -/
def bsearchGo (f : Nat → Bool) : Nat → Nat → Nat → Nat
  | 0, lo, _ => lo
  | fuel + 1, lo, hi =>
    if lo < hi then
      if f ((lo + hi) / 2) then bsearchGo f fuel lo ((lo + hi) / 2)
      else bsearchGo f fuel ((lo + hi) / 2 + 1) hi
    else lo

/-- search(length, pred): smallest index in [0, n) satisfying the (monotone)
predicate, or n when none does. -/
def search (n : Nat) (f : Nat → Bool) : Nat :=
  bsearchGo f n 0 n

/-- seekTo from sequence-cursor.js (lines 195-205) acting on the list of keys
of the node: binary-search the smallest index whose key compares at least the
probe key; if there is none and lastPositionIfNotfound, assert idx greater
than zero (none models the invariant failure) and step back one; finally
report whether the index is in bounds.  Result: (returned bool, final idx).
seekIdx is the binary-search step of seekTo: the index of the smallest key
comparing at least the probe key. -/
def seekIdx (keys : List Int) (key : Int) : Nat :=
  search keys.length (fun i => 0 ≤ jsCompare (keys.getD i 0) key)

/-- The remainder of seekTo after the binary search (see seekIdx). -/
def seekToKeys (keys : List Int) (key : Int) (lastPositionIfNotfound : Bool) :
    Option (Bool × Nat) :=
  let n := keys.length
  let idx := seekIdx keys key
  if idx = n ∧ lastPositionIfNotfound then
    if 0 < idx then some (decide (idx - 1 < n), idx - 1) else none
  else some (decide (idx < n), idx)

/-- A sequence node of the prolly-tree: a leaf holding items or a meta node
holding child subtrees (each MetaTuple is represented by the child sequence
it references; ref/key bookkeeping is not needed for the cursor claims). -/
inductive MSeq where
  | leaf (items : List Int)
  | meta (children : List MSeq)

/-- Sequence length: item count for a leaf, tuple count for a meta node. -/
def seqLen : MSeq → Nat
  | .leaf items => items.length
  | .meta children => children.length

/-- getChildSequence: a leaf has no children, a meta node resolves the tuple
at the index to its child sequence. -/
def getChildSeq : MSeq → Nat → Option MSeq
  | .leaf _, _ => none
  | .meta cs, i => cs[i]?

/-- A SequenceCursor: parent cursor, current sequence, current index (Int,
since the before-start sentinel is -1). -/
inductive Cursor where
  | mk (parent : Option Cursor) (seq : MSeq) (idx : Int)

def Cursor.par : Cursor → Option Cursor
  | .mk p _ _ => p

def Cursor.seq : Cursor → MSeq
  | .mk _ s _ => s

def Cursor.idx : Cursor → Int
  | .mk _ _ i => i

/-- The length getter of SequenceCursor: length of the current sequence. -/
def Cursor.length (c : Cursor) : Int :=
  (seqLen c.seq : Int)

/-- The valid getter: 0 <= idx < length. -/
def Cursor.valid (c : Cursor) : Bool :=
  decide (0 ≤ c.idx) && decide (c.idx < c.length)

/-- advanceLocal (sequence-cursor.js lines 103-118): advance within the
current chunk only; if at the last index and allowPastEnd, move to the
past-end sentinel (still returning false). -/
def advanceLocal (allowPastEnd : Bool) (c : Cursor) : Bool × Cursor :=
  if c.idx = c.length then (false, c)
  else if c.idx < c.length - 1 then (true, .mk c.par c.seq (c.idx + 1))
  else if allowPastEnd then (false, .mk c.par c.seq (c.idx + 1))
  else (false, c)

/-- sync (sequence-cursor.js lines 45-50): re-read the current sequence as
the parent's child at the parent's index; none models the notNull failure. -/
def syncSeq (p : Cursor) : Option MSeq :=
  if 0 ≤ p.idx then getChildSeq p.seq p.idx.toNat else none

/-- advanceMaybeAllowPastEnd (sequence-cursor.js lines 128-144).  Returns
(returned bool, cursor after the call); none models an invariant failure. -/
def advanceMaybe (allowPastEnd : Bool) : Cursor → Option (Bool × Cursor)
  | .mk p s i =>
    if i = (seqLen s : Int) then some (false, .mk p s i)
    else
      match advanceLocal allowPastEnd (.mk p s i) with
      | (true, c1) => some (true, c1)
      | (false, c1) =>
        match p with
        | some par =>
          match advanceMaybe false par with
          | none => none
          | some (true, p1) =>
            match syncSeq p1 with
            | none => none
            | some s1 => some (true, .mk (some p1) s1 0)
          | some (false, p1) => some (false, .mk (some p1) c1.seq c1.idx)
        | none => some (false, c1)

/-- retreatMaybeAllowBeforeStart (sequence-cursor.js lines 155-176); the
invariant(idx === 0) failure is none. -/
def retreatMaybe (allowBeforeStart : Bool) : Cursor → Option (Bool × Cursor)
  | .mk p s i =>
    if 0 < i then some (true, .mk p s (i - 1))
    else if i = -1 then some (false, .mk p s i)
    else if i = 0 then
      match p with
      | some par =>
        match retreatMaybe false par with
        | none => none
        | some (true, p1) =>
          match syncSeq p1 with
          | none => none
          | some s1 => some (true, .mk (some p1) s1 ((seqLen s1 : Int) - 1))
        | some (false, p1) =>
          if allowBeforeStart then some (false, .mk (some p1) s (i - 1))
          else some (false, .mk (some p1) s i)
      | none =>
        if allowBeforeStart then some (false, .mk p s (i - 1))
        else some (false, .mk p s i)
    else none

/-- advance(): advanceMaybeAllowPastEnd with allowPastEnd = true. -/
def Cursor.advance (c : Cursor) : Option (Bool × Cursor) :=
  advanceMaybe true c

/-- retreat(): retreatMaybeAllowBeforeStart with allowBeforeStart = true. -/
def Cursor.retreat (c : Cursor) : Option (Bool × Cursor) :=
  retreatMaybe true c

/- The logical byte sequence of a blob tree: leaf items in order, meta
children concatenated left to right (flattenL is the list version). -/
mutual
/-- Logical byte sequence of a blob tree node. -/
def flattenS : MSeq → List Int
  | .leaf items => items
  | .meta cs => flattenL cs
/-- Concatenated logical bytes of a child list. -/
def flattenL : List MSeq → List Int
  | [] => []
  | c :: cs => flattenS c ++ flattenL cs
end

/- numLeaves of a sequence: item count for a leaf, sum over children for a
meta node (numLeavesL is the list version, the last offsets entry). -/
mutual
/-- numLeaves of a sequence node. -/
def numLeavesS : MSeq → Nat
  | .leaf items => items.length
  | .meta cs => numLeavesL cs
/-- Total leaf count of a child list. -/
def numLeavesL : List MSeq → Nat
  | [] => 0
  | c :: cs => numLeavesS c + numLeavesL cs
end

def isMetaS : MSeq → Bool
  | .leaf _ => false
  | .meta _ => true

/-- cumulativeNumberOfLeaves(i): for a meta node the precomputed offsets sum
through child i; for a leaf the number of items through index i, which is
i + 1 (leaf-sequence.js is not under src; this is the only reading under
which the binary search of advanceToOffset lands on the item at the target
index, as newCursorAtIndex requires). -/
def cumLeaves : MSeq → Nat → Nat
  | .leaf _, i => i + 1
  | .meta cs, i => numLeavesL (cs.take (i + 1))

/-- The index set by advanceToOffset (sequence-cursor.js lines 84-92): binary
search for the smallest frame index whose cumulative leaf count exceeds the
target offset, clamped to the last child on a meta node at the cumulative
end. -/
def advanceToOffsetIdx (s : MSeq) (idx : Nat) : Nat :=
  let r := search (seqLen s) (fun i => decide (idx < cumLeaves s i))
  if isMetaS s && decide (r = seqLen s) then seqLen s - 1 else r

/-- The leaf offset consumed by advanceToOffset: the cumulative count left of
the chosen frame index. -/
def advanceToOffsetConsumed (s : MSeq) (frameIdx : Nat) : Nat :=
  if 0 < frameIdx then cumLeaves s (frameIdx - 1) else 0

/-- newCursorAtIndex (sequence-cursor.js lines 13-21) collapsed to the leaf
frame it produces: descend level by level with advanceToOffset, subtracting
the consumed offset, and return the leaf items together with the in-leaf
index; none models a failed child lookup.  The first argument is fuel, a
structural bound on the descent depth; the wrapper below supplies
sizeOf s + 1, which the descent never exhausts since every child is
structurally smaller. -/
def cursorLeafGo : Nat → MSeq → Nat → Option (List Int × Nat)
  | 0, _, _ => none
  | _ + 1, .leaf items, idx => some (items, advanceToOffsetIdx (.leaf items) idx)
  | fuel + 1, .meta cs, idx =>
    let r := advanceToOffsetIdx (.meta cs) idx
    match cs[r]? with
    | none => none
    | some child => cursorLeafGo fuel child (idx - advanceToOffsetConsumed (.meta cs) r)

/- Structural size of a tree, used as the fuel bound of cursorLeaf. -/
mutual
/-- Node count of a tree. -/
def sizeS : MSeq → Nat
  | .leaf _ => 1
  | .meta cs => 1 + sizeL cs
/-- Total node count of a child list. -/
def sizeL : List MSeq → Nat
  | [] => 0
  | c :: cs => sizeS c + sizeL cs
end

/-- The leaf frame reached by newCursorAtIndex from the root. -/
def cursorLeaf (s : MSeq) (idx : Nat) : Option (List Int × Nat) :=
  cursorLeafGo (sizeS s + 1) s idx

/-- BlobReader.seek (blob.js lines 170-200): the new absolute position is the
offset for whence 0, current position plus offset for whence 1, blob length
plus offset for whence 2; any other whence throws, and a negative result
fails the invariant (programming error), both modelled none. -/
def blobSeekAbs (pos len offset : Int) (whence : Nat) : Option Int :=
  match whence with
  | 0 => if offset < 0 then none else some offset
  | 1 => if pos + offset < 0 then none else some (pos + offset)
  | 2 => if len + offset < 0 then none else some (len + offset)
  | _ => none

/-- BlobReader.read / _readCur (blob.js lines 129-160) at absolute position
pos: when the cursor is valid, return the remainder of the current chunk from
the in-chunk index (the whole chunk when the index is 0; an in-chunk index at
or past the chunk length fails the invariant); past the end, read reports
done with no bytes. -/
def blobRead (s : MSeq) (pos : Nat) : Option (List Int) :=
  if pos < numLeavesS s then
    match cursorLeaf s pos with
    | none => none
    | some (items, j) =>
      if j = 0 then some items
      else if j < items.length then some (items.drop j)
      else none
  else some []

/-- The canonical-root descent loop at the end of sequenceChunker.Done (Go
types sequence chunker, lines 304-313).  A MetaTuple is represented by the
child sequence its ref points to.  Given the child of the single tuple: a
non-meta child or a meta child with more than one tuple is returned as the
root; a single-tuple meta is descended through; a meta with no tuples makes
getItem(0) panic (none). -/
def descendCanonical : MSeq → Option MSeq
  | .leaf items => some (.leaf items)
  | .meta [] => none
  | .meta [t] => descendCanonical t
  | .meta (t :: u :: ts) => some (.meta (t :: u :: ts))

/-- The state of the top chunker at the end of Done: a leaf chunker holds
buffered items, a non-leaf chunker holds buffered meta tuples (child trees). -/
inductive ChunkerTop where
  | leafTop (items : List Int)
  | metaTop (tuples : List MSeq)

/-- The root-producing tail of sequenceChunker.Done (lines 294-314), reached
when no parent has pending content: a leaf chunker or a buffer with more than
one entry emits the buffer as the root; a non-leaf chunker with exactly one
tuple descends to the canonical root; a non-leaf chunker with no entries
violates the PanicIfFalse assertion (none). -/
def doneRoot : ChunkerTop → Option MSeq
  | .leafTop items => some (.leaf items)
  | .metaTop ts =>
    if 1 < ts.length then some (.meta ts)
    else
      match ts with
      | [t] => descendCanonical t
      | _ => none

/-- A sequence shape that Done may return as the canonical root: a leaf, or a
meta holding more than one tuple. -/
def canonicalShape : MSeq → Prop
  | .leaf _ => True
  | .meta ts => 1 < ts.length

/-- The chain of single-tuple meta wrappers above a sequence: SingleChain t s
holds when s is reached from t by stripping single-child meta nodes. -/
inductive SingleChain : MSeq → MSeq → Prop where
  | refl (s : MSeq) : SingleChain s s
  | step (t s : MSeq) : SingleChain t s → SingleChain (.meta [t]) s

/-- Along the single-tuple chain there is no empty meta node (the descent
would panic there). -/
def chainOk : MSeq → Bool
  | .leaf _ => true
  | .meta [] => false
  | .meta [t] => chainOk t
  | .meta (_ :: _ :: _) => true

/-- The leaf-level cursor position produced by newCursorAtValue for a probe
key (ordered-sequence.js: the cursor ends on the first entry whose key is at
least the probe key, or past the end when there is none); the per-level
seekTo collapses to seekIdx on the ordered leaf keys. -/
def mapCursorIdx (entries : List (Int × V)) (k : Int) : Nat :=
  seekIdx (entries.map Prod.fst) k

/-- Outcome of a collection mutation: the original collection returned as-is
(return this), or a chunkSequence splice at the cursor. -/
inductive MutationResult (α : Type) where
  | self
  | changed (cursorIdx : Nat) (insert : List α) (remove : Nat)

/-- Map.prototype.set (map.js lines 142-155): find the cursor for the key; if
it lands on an equal key whose value equals the new value, return this;
otherwise splice in the new entry, removing the old one if the key matched. -/
def mapSet [DecidableEq V] (entries : List (Int × V)) (k : Int) (v : V) :
    MutationResult (Int × V) :=
  let i := mapCursorIdx entries k
  if h : i < entries.length then
    if (entries.get ⟨i, h⟩).1 = k then
      if (entries.get ⟨i, h⟩).2 = v then .self
      else .changed i [(k, v)] 1
    else .changed i [(k, v)] 0
  else .changed i [(k, v)] 0

/-- Map.prototype.delete (map.js lines 157-164): splice out the entry when
the cursor lands on an equal key, otherwise return this. -/
def mapDelete (entries : List (Int × V)) (k : Int) : MutationResult (Int × V) :=
  let i := mapCursorIdx entries k
  if h : i < entries.length then
    if (entries.get ⟨i, h⟩).1 = k then .changed i [] 1
    else .self
  else .self

/-- Set.prototype.add (set.js lines 99-106): return this when the cursor
lands on the value, otherwise splice it in. -/
def setAdd (s : List Int) (v : Int) : MutationResult Int :=
  let i := seekIdx s v
  if h : i < s.length then
    if s.get ⟨i, h⟩ = v then .self
    else .changed i [v] 0
  else .changed i [v] 0

/-- Greedy rolling-hash chunk splitting.  Modelled from the spec (section
4.5; the JS sequence-chunker is not under src): items are appended one by one
into the current buffer, the hasher decides a boundary from the bytes hashed
since the last reset (here: from the buffered items), a boundary emits the
buffer as a chunk, and the items left at the end form a final
implicit-boundary chunk. -/
def splitGo (b : List α → Bool) (cur : List α) : List α → List (List α)
  | [] => if cur.isEmpty then [] else [cur]
  | x :: xs =>
    if b (cur ++ [x]) then (cur ++ [x]) :: splitGo b [] xs
    else splitGo b (cur ++ [x]) xs

/-- Chunk boundary decomposition of an item stream (see splitGo). -/
def splitChunks (b : List α → Bool) (xs : List α) : List (List α) :=
  splitGo b [] xs

/-- Level-by-level tree construction.  Modelled from the spec (section 4.5):
each level chunks the nodes of the level below with its own hasher and wraps
each chunk in a meta node; the loop ends when a single node remains, which
Done returns as the root.  The first argument is fuel bounding the number of
levels (the chunker's level count is bounded by the item count); the
function is total and deterministic for any fuel. -/
def buildLevels (bMeta : List MSeq → Bool) : Nat → List MSeq → MSeq
  | 0, nodes => .meta nodes
  | fuel + 1, nodes =>
    match nodes with
    | [n] => n
    | ns => buildLevels bMeta fuel ((splitChunks bMeta ns).map .meta)

/-- Bulk chunking of a logical item sequence into a prolly-tree (spec
sections 4.5 and 4.6, chunkSequenceSync): chunk the items into leaves, then
build meta levels until a single root remains; an empty stream produces one
empty leaf. -/
def buildTree (bLeaf : List Int → Bool) (bMeta : List MSeq → Bool)
    (items : List Int) : MSeq :=
  let chunks := splitChunks bLeaf items
  let leaves := if chunks.isEmpty then [MSeq.leaf []] else chunks.map MSeq.leaf
  buildLevels bMeta (leaves.length + 1) leaves

/-- The logical contents of List.splice (list.js lines 115-121, through the
spec-modelled chunkSequence of section 4.6): the new sequence keeps the first
idx items, inserts the new items, and skips deleteCount old items. -/
def listSplice (c : List Int) (idx del : Nat) (ins : List Int) : List Int :=
  c.take idx ++ ins ++ c.drop (idx + del)

/-- List.get (list.js lines 106-109): the value at the index. -/
def listGet (c : List Int) (i : Nat) : Int :=
  c.getD i 0

/-- State of one Go sequenceChunker level (types sequence chunker, lines
11-29): the buffered entries (count, item), the tokens hashed into the
rolling hasher since its last reset (hashValueBytes feeds the count as a
Number when the count exceeds one, then the item), and the chunks emitted at
boundaries. -/
structure GoChunker where
  current : List (Nat × Int)
  tokens : List Int
  chunks : List (List (Nat × Int))
deriving DecidableEq

/-- The fresh chunker of newEmptySequenceChunker. -/
def emptyGoChunker : GoChunker :=
  ⟨[], [], []⟩

/-- A rolling hasher that never crosses a boundary; under it the chunker
keeps everything in one chunk and no parent chunker is ever created, so the
single-level model below covers every code path exercised. -/
def neverBoundary : List Int → Bool :=
  fun _ => false

/-- consumeLastEntry (Go sequence chunker lines 182-195): hash the count (if
greater than one) and the item of the last buffered entry; on a boundary,
reset the hasher and emit the buffer as a chunk (handleChunkBoundary),
returning true. -/
def consumeLastEntry (b : List Int → Bool) (sc : GoChunker) : GoChunker × Bool :=
  match sc.current.getLast? with
  | none => (sc, false)
  | some e =>
    let toks := sc.tokens ++ (if 1 < e.1 then [(e.1 : Int)] else []) ++ [e.2]
    if b toks then
      ({ current := [], tokens := [], chunks := sc.chunks ++ [sc.current] }, true)
    else
      ({ sc with tokens := toks }, false)

/-- appendEntry (lines 177-180): push the entry and consume it.  Replayed
entries are never merged with the previous entry. -/
def appendEntry (b : List Int → Bool) (sc : GoChunker) (e : Nat × Int) :
    GoChunker × Bool :=
  consumeLastEntry b { sc with current := sc.current ++ [e] }

/-- Append for the List kind (lines 153-175): a fresh item equal to the last
buffered item merges into it by incrementing its count (the Repeat
run-length branch, no hashing); otherwise the previous entry is consumed and
a fresh entry with count one is pushed. -/
def goAppend (b : List Int → Bool) (sc : GoChunker) (item : Int) : GoChunker :=
  match sc.current.getLast? with
  | none => { sc with current := [(1, item)] }
  | some e =>
    if e.2 = item then
      { sc with current := sc.current.dropLast ++ [(e.1 + 1, e.2)] }
    else
      let sc2 := (consumeLastEntry b sc).1
      { sc2 with current := sc2.current ++ [(1, item)] }

/-- resume (lines 68-82) for a chunker on a single-chunk leaf: walk back to
the chunk start and replay the entries before the cursor index through
appendEntry. -/
def replayEntries (b : List Int → Bool) (sc : GoChunker) :
    List (Nat × Int) → GoChunker
  | [] => sc
  | e :: es => replayEntries b (appendEntry b sc e).1 es

/-- finalizeCursor (lines 317-322) on a single-chunk leaf cursor: append the
remaining entries from the cursor position, stopping early only when a
boundary lands on the last item. -/
def finalizeGo (b : List Int → Bool) (sc : GoChunker)
    (entries : List (Nat × Int)) (idx : Nat) : Nat → GoChunker
  | 0 => sc
  | fuel + 1 =>
    if idx < entries.length then
      let r := appendEntry b sc (entries.getD idx (0, 0))
      if r.2 ∧ idx = entries.length - 1 then r.1
      else finalizeGo b r.1 entries (idx + 1) fuel
    else sc

/-- NewList-style bulk construction: append every item into a fresh chunker
and let Done emit current as the leaf root (no boundary fires under
neverBoundary, so no parent chunker exists and the isLeaf branch of Done
returns the buffer). -/
def bulkListEntries (b : List Int → Bool) (items : List Int) : List (Nat × Int) :=
  (items.foldl (goAppend b) emptyGoChunker).current

/-- chunkSequence (spec section 4.6) over a single-chunk list: create a
chunker resumed at the cursor index, append the inserted items, skip
removeCount entries forward, and let Done finalize the cursor and emit the
leaf root. -/
def spliceListEntries (b : List Int → Bool) (old : List (Nat × Int))
    (idx : Nat) (insert : List Int) (removeCount : Nat) : List (Nat × Int) :=
  let sc0 := replayEntries b emptyGoChunker (old.take idx)
  let sc1 := insert.foldl (goAppend b) sc0
  (finalizeGo b sc1 old (idx + removeCount) (old.length + 1 - (idx + removeCount))).current

/-- The logical item sequence denoted by a run-length entry list. -/
def expandEntries (l : List (Nat × Int)) : List Int :=
  (l.map (fun e => List.replicate e.1 e.2)).flatten

/-- The ordered diff (spec section 4.8; ordered-sequence-diff.js is not under
src).  Modelled from the spec: two cursors walk the trees in key order; equal
keys with equal values skip, equal keys with different values emit the key as
modified, otherwise the smaller side is emitted as removed (from side, first
list) or added (this side, second list). -/
def orderedDiff (key : α → Int) (value : α → β) [DecidableEq β] :
    List α → List α → List α × List α × List Int
  | [], bs => (bs, [], [])
  | a :: as, [] => ([], a :: as, [])
  | a :: as, b :: bs =>
    if key a < key b then
      let r := orderedDiff key value as (b :: bs)
      (r.1, a :: r.2.1, r.2.2)
    else if key b < key a then
      let r := orderedDiff key value (a :: as) bs
      (b :: r.1, r.2.1, r.2.2)
    else
      let r := orderedDiff key value as bs
      if value a = value b then r else (r.1, r.2.1, key a :: r.2.2)
termination_by as bs => as.length + bs.length

/-- Set.prototype.diff (set.js lines 136-141): run the ordered diff, assert
that no entry is modified (none models the invariant firing), and return the
pair [added, removed]. -/
def setDiff (a b : List Int) : Option (List Int × List Int) :=
  let r := orderedDiff id id a b
  if r.2.2.length = 0 then some (r.1, r.2.1) else none

theorem jsCompare_eq_zero_iff (a b : Int) : jsCompare a b = 0 ↔ a = b := by
  unfold jsCompare
  split
  · omega
  · split <;> omega

theorem removeDupGo_cons (key : α → Int) (x y : α) (ys : List α) :
    removeDupGo key x (y :: ys) =
      if key x = key y then removeDupGo key y ys else x :: removeDupGo key y ys := by
  rw [removeDupGo]
  exact if_congr (jsCompare_eq_zero_iff _ _) rfl rfl

theorem filterKey_cons_pos (key : α → Int) {x : α} {k : Int} (l : List α)
    (hx : key x = k) :
    (x :: l).filter (fun a => key a == k) = x :: l.filter (fun a => key a == k) :=
  List.filter_cons_of_pos (by simp [hx])

theorem filterKey_cons_neg (key : α → Int) {x : α} {k : Int} (l : List α)
    (hx : key x ≠ k) :
    (x :: l).filter (fun a => key a == k) = l.filter (fun a => key a == k) :=
  List.filter_cons_of_neg (by simp [hx])

theorem getLast?_cons_of_ne (x : α) (l : List α) (h : l ≠ []) :
    (x :: l).getLast? = l.getLast? := by
  obtain ⟨a, ha⟩ := Option.isSome_iff_exists.mp (List.getLast?_isSome.mpr h)
  rw [List.getLast?_cons, ha]
  rfl

theorem mem_keyInsert (key : α → Int) (x : α) (l : List α) (a : α) :
    a ∈ keyInsert key x l ↔ a = x ∨ a ∈ l := by
  induction l with
  | nil => simp [keyInsert]
  | cons y ys ih =>
    simp only [keyInsert]
    split
    · simp [List.mem_cons]
    · simp only [List.mem_cons, ih]
      tauto

theorem keyInsert_pairwise (key : α → Int) (x : α) (l : List α)
    (h : l.Pairwise (fun a b => key a ≤ key b)) :
    (keyInsert key x l).Pairwise (fun a b => key a ≤ key b) := by
  induction l with
  | nil => simp [keyInsert]
  | cons y ys ih =>
    simp only [keyInsert]
    rcases h with _ | ⟨hy, hys⟩
    split
    · refine List.Pairwise.cons ?_ (List.Pairwise.cons hy hys)
      intro z hz
      rcases List.mem_cons.mp hz with rfl | hz
      · omega
      · have := hy z hz
        omega
    · refine List.Pairwise.cons ?_ (ih hys)
      intro z hz
      rcases (mem_keyInsert key x ys z).mp hz with rfl | hz
      · omega
      · exact hy z hz

theorem keySort_pairwise (key : α → Int) (l : List α) :
    (keySort key l).Pairwise (fun a b => key a ≤ key b) := by
  induction l with
  | nil => simp [keySort]
  | cons x xs ih => exact keyInsert_pairwise key x _ ih

theorem keyInsert_filter_pos (key : α → Int) (x : α) (l : List α) (k : Int)
    (hx : key x = k) :
    (keyInsert key x l).filter (fun a => key a == k) =
      x :: l.filter (fun a => key a == k) := by
  induction l with
  | nil => exact filterKey_cons_pos key [] hx
  | cons y ys ih =>
    simp only [keyInsert]
    split
    · exact filterKey_cons_pos key _ hx
    · rename_i hle
      have hy : key y ≠ k := by omega
      rw [filterKey_cons_neg key _ hy, ih, filterKey_cons_neg key _ hy]

theorem keyInsert_filter_neg (key : α → Int) (x : α) (l : List α) (k : Int)
    (hx : key x ≠ k) :
    (keyInsert key x l).filter (fun a => key a == k) =
      l.filter (fun a => key a == k) := by
  induction l with
  | nil => exact filterKey_cons_neg key [] hx
  | cons y ys ih =>
    simp only [keyInsert]
    split
    · rw [filterKey_cons_neg key _ hx]
    · by_cases hy : key y = k
      · rw [filterKey_cons_pos key _ hy, ih, filterKey_cons_pos key _ hy]
      · rw [filterKey_cons_neg key _ hy, ih, filterKey_cons_neg key _ hy]

theorem keySort_filter (key : α → Int) (l : List α) (k : Int) :
    (keySort key l).filter (fun a => key a == k) =
      l.filter (fun a => key a == k) := by
  induction l with
  | nil => simp [keySort]
  | cons x xs ih =>
    simp only [keySort]
    by_cases hx : key x = k
    · rw [keyInsert_filter_pos key x _ k hx, ih, List.filter_cons]
      simp [hx]
    · rw [keyInsert_filter_neg key x _ k hx, ih, List.filter_cons]
      simp [hx]

theorem mem_keySort (key : α → Int) (l : List α) (a : α) :
    a ∈ keySort key l ↔ a ∈ l := by
  induction l with
  | nil => simp [keySort]
  | cons x xs ih =>
    simp [keySort, mem_keyInsert, ih]

theorem removeDupGo_sublist (key : α → Int) (x : α) (xs : List α) :
    (removeDupGo key x xs).Sublist (x :: xs) := by
  induction xs generalizing x with
  | nil => simp [removeDupGo]
  | cons y ys ih =>
    simp only [removeDupGo]
    split
    · exact List.Sublist.cons x (ih y)
    · exact List.Sublist.cons₂ x (ih y)

theorem removeDupGo_key_le (key : α → Int) (x : α) (xs : List α)
    (h : (x :: xs).Pairwise (fun a b => key a ≤ key b)) :
    ∀ z ∈ removeDupGo key x xs, key x ≤ key z := by
  induction xs generalizing x with
  | nil =>
    intro z hz
    simp only [removeDupGo, List.mem_singleton] at hz
    subst hz
    exact le_refl _
  | cons y ys ih =>
    intro z hz
    rcases h with _ | ⟨hx, htail⟩
    have hxy : key x ≤ key y := hx y (List.mem_cons_self y ys)
    rw [removeDupGo_cons] at hz
    split at hz
    · have := ih y htail z hz
      omega
    · rcases List.mem_cons.mp hz with rfl | hz
      · omega
      · have := ih y htail z hz
        omega

theorem removeDupGo_pairwise_lt (key : α → Int) (x : α) (xs : List α)
    (h : (x :: xs).Pairwise (fun a b => key a ≤ key b)) :
    (removeDupGo key x xs).Pairwise (fun a b => key a < key b) := by
  induction xs generalizing x with
  | nil => simp [removeDupGo]
  | cons y ys ih =>
    rcases h with _ | ⟨hx, htail⟩
    have hxy : key x ≤ key y := hx y (List.mem_cons_self y ys)
    rw [removeDupGo_cons]
    split
    · exact ih y htail
    · rename_i hne
      refine List.Pairwise.cons ?_ (ih y htail)
      intro z hz
      have hyz := removeDupGo_key_le key y ys htail z hz
      omega

theorem removeDupGo_filter (key : α → Int) (x : α) (xs : List α) (k : Int)
    (h : (x :: xs).Pairwise (fun a b => key a ≤ key b)) :
    (removeDupGo key x xs).filter (fun a => key a == k) =
      ((x :: xs).filter (fun a => key a == k)).getLast?.toList := by
  induction xs generalizing x with
  | nil =>
    by_cases hx : key x = k
    · rw [show removeDupGo key x [] = [x] from rfl, filterKey_cons_pos key [] hx]
      rfl
    · rw [show removeDupGo key x [] = [x] from rfl, filterKey_cons_neg key [] hx]
      rfl
  | cons y ys ih =>
    rcases h with _ | ⟨hx, htail⟩
    have hxy : key x ≤ key y := hx y (List.mem_cons_self y ys)
    rw [removeDupGo_cons]
    split
    · rename_i heq
      rw [ih y htail]
      by_cases hxk : key x = k
      · have hyk : key y = k := by omega
        have hymem : y ∈ (y :: ys).filter (fun a => key a == k) := by
          simp [List.mem_filter, hyk]
        have hne2 : (y :: ys).filter (fun a => key a == k) ≠ [] :=
          List.ne_nil_of_mem hymem
        rw [filterKey_cons_pos key _ hxk, getLast?_cons_of_ne _ _ hne2]
      · have hyk : key y ≠ k := by omega
        rw [filterKey_cons_neg key _ hxk]
    · rename_i hne
      by_cases hxk : key x = k
      · have hyk : key y ≠ k := by omega
        have hfilnil : (y :: ys).filter (fun a => key a == k) = [] := by
          rw [List.filter_eq_nil_iff]
          intro z hz
          rcases List.mem_cons.mp hz with rfl | hz
          · simp [hyk]
          · have h1 := List.rel_of_pairwise_cons htail hz
            have hzk : key z ≠ k := by omega
            simp [hzk]
        rw [filterKey_cons_pos key _ hxk, ih y htail, hfilnil,
          filterKey_cons_pos key _ hxk, hfilnil]
        rfl
      · rw [filterKey_cons_neg key _ hxk, ih y htail, filterKey_cons_neg key _ hxk]

theorem removeDup_filter (key : α → Int) (l : List α) (k : Int)
    (h : l.Pairwise (fun a b => key a ≤ key b)) :
    (removeDuplicateFromOrdered key l).filter (fun a => key a == k) =
      (l.filter (fun a => key a == k)).getLast?.toList := by
  cases l with
  | nil => simp [removeDuplicateFromOrdered]
  | cons x xs => exact removeDupGo_filter key x xs k h

theorem find?_eq_head?_filter (p : α → Bool) (l : List α) :
    l.find? p = (l.filter p).head? := by
  induction l with
  | nil => simp
  | cons x xs ih =>
    by_cases hx : p x
    · rw [List.find?_cons_of_pos _ hx, List.filter_cons_of_pos hx]
      rfl
    · rw [List.find?_cons_of_neg _ hx, List.filter_cons_of_neg hx, ih]

theorem head?_toList (o : Option α) : o.toList.head? = o := by
  cases o <;> rfl

theorem removeDup_pairwise_lt (key : α → Int) (l : List α)
    (h : l.Pairwise (fun a b => key a ≤ key b)) :
    (removeDuplicateFromOrdered key l).Pairwise (fun a b => key a < key b) := by
  cases l with
  | nil => simp [removeDuplicateFromOrdered]
  | cons x xs => exact removeDupGo_pairwise_lt key x xs h

theorem sortDedup_pairwise_lt (key : α → Int) (l : List α) :
    (removeDuplicateFromOrdered key (keySort key l)).Pairwise
      (fun a b => key a < key b) :=
  removeDup_pairwise_lt key _ (keySort_pairwise key l)

theorem sortDedup_filter (key : α → Int) (l : List α) (k : Int) :
    (removeDuplicateFromOrdered key (keySort key l)).filter (fun a => key a == k) =
      (l.filter (fun a => key a == k)).getLast?.toList := by
  rw [removeDup_filter key _ k (keySort_pairwise key l), keySort_filter]

theorem mem_map_key_iff_filter (key : α → Int) (l : List α) (k : Int) :
    k ∈ l.map key ↔ l.filter (fun a => key a == k) ≠ [] := by
  rw [List.mem_map, Ne, List.filter_eq_nil_iff]
  push_neg
  constructor
  · rintro ⟨a, ha, rfl⟩
    exact ⟨a, ha, by simp⟩
  · rintro ⟨a, ha, hk⟩
    exact ⟨a, ha, by simpa using hk⟩

theorem toList_eq_nil (o : Option α) : o.toList = [] ↔ o = none := by
  cases o <;> simp

theorem sortDedup_mem_key (key : α → Int) (l : List α) (k : Int) :
    (k ∈ (removeDuplicateFromOrdered key (keySort key l)).map key) ↔ k ∈ l.map key := by
  rw [mem_map_key_iff_filter, mem_map_key_iff_filter, sortDedup_filter]
  simp only [Ne, toList_eq_nil, List.getLast?_eq_none_iff]

theorem sortDedup_length (key : α → Int) (l : List α) :
    (removeDuplicateFromOrdered key (keySort key l)).length = (l.map key).toFinset.card := by
  have hpl := sortDedup_pairwise_lt key l
  have hnd : ((removeDuplicateFromOrdered key (keySort key l)).map key).Nodup := by
    have : ((removeDuplicateFromOrdered key (keySort key l)).map key).Pairwise (· ≠ ·) :=
      (List.pairwise_map).mpr (hpl.imp fun h => ne_of_lt h)
    exact this
  have hset : ((removeDuplicateFromOrdered key (keySort key l)).map key).toFinset
      = (l.map key).toFinset := by
    ext k
    simp only [List.mem_toFinset]
    exact sortDedup_mem_key key l k
  calc (removeDuplicateFromOrdered key (keySort key l)).length
      = ((removeDuplicateFromOrdered key (keySort key l)).map key).length :=
        (List.length_map _ _).symm
    _ = ((removeDuplicateFromOrdered key (keySort key l)).map key).toFinset.card :=
        (List.toFinset_card_of_nodup hnd).symm
    _ = (l.map key).toFinset.card := by rw [hset]

theorem buildMapData_pairwise (kvs : List (Int × V)) :
    (buildMapData kvs).Pairwise (fun p q => p.1 < q.1) :=
  sortDedup_pairwise_lt Prod.fst kvs

theorem buildMapData_findEntry {V : Type} (kvs : List (Int × V)) (k : Int) :
    findEntry k (buildMapData kvs) = lastEntry k kvs := by
  unfold findEntry lastEntry buildMapData
  rw [find?_eq_head?_filter, sortDedup_filter Prod.fst kvs k, head?_toList]

theorem buildMapData_dup_example {V : Type} (a b : V) :
    buildMapData [(1, a), (1, b)] = [(1, b)] := by
  simp [buildMapData, keySort, keyInsert, removeDuplicateFromOrdered, removeDupGo,
    jsCompare]

theorem jsCompare_nonneg_iff (a b : Int) : 0 ≤ jsCompare a b ↔ b ≤ a := by
  unfold jsCompare
  split
  · omega
  · split <;> omega

theorem bsearchGo_spec (f : Nat → Bool) (hi0 : Nat)
    (hm : ∀ i j, i ≤ j → j < hi0 → f i = true → f j = true) :
    ∀ (fuel lo hi : Nat), hi ≤ hi0 → hi - lo ≤ fuel → lo ≤ hi →
      lo ≤ bsearchGo f fuel lo hi ∧ bsearchGo f fuel lo hi ≤ hi ∧
      (∀ i, lo ≤ i → i < bsearchGo f fuel lo hi → f i = false) ∧
      (bsearchGo f fuel lo hi < hi → f (bsearchGo f fuel lo hi) = true) := by
  intro fuel
  induction fuel with
  | zero =>
    intro lo hi hle hfuel hlohi
    have : lo = hi := by omega
    subst this
    simp only [bsearchGo]
    exact ⟨le_refl _, le_refl _, fun i h1 h2 => absurd h2 (by omega),
      fun h => absurd h (by omega)⟩
  | succ fuel ih =>
    intro lo hi hle hfuel hlohi
    by_cases hlt : lo < hi
    · have hm1 : lo ≤ (lo + hi) / 2 := by omega
      have hm2 : (lo + hi) / 2 < hi := by omega
      by_cases hf : f ((lo + hi) / 2) = true
      · have hstep : bsearchGo f (fuel + 1) lo hi = bsearchGo f fuel lo ((lo + hi) / 2) := by
          simp [bsearchGo, if_pos hlt, hf]
        have hrec := ih lo ((lo + hi) / 2) (by omega) (by omega) (by omega)
        rw [hstep]
        obtain ⟨h1, h2, h3, h4⟩ := hrec
        refine ⟨h1, by omega, h3, fun hlt2 => ?_⟩
        by_cases heq : bsearchGo f fuel lo ((lo + hi) / 2) = (lo + hi) / 2
        · rwa [heq]
        · exact h4 (by omega)
      · have hf2 : f ((lo + hi) / 2) = false := by
          cases hval : f ((lo + hi) / 2)
          · rfl
          · exact absurd hval hf
        have hstep : bsearchGo f (fuel + 1) lo hi
            = bsearchGo f fuel ((lo + hi) / 2 + 1) hi := by
          simp [bsearchGo, if_pos hlt, hf2]
        have hrec := ih ((lo + hi) / 2 + 1) hi (by omega) (by omega) (by omega)
        rw [hstep]
        obtain ⟨h1, h2, h3, h4⟩ := hrec
        refine ⟨by omega, h2, fun i hi1 hi2 => ?_, h4⟩
        by_cases hsmall : (lo + hi) / 2 + 1 ≤ i
        · exact h3 i hsmall hi2
        · cases hval : f i
          · rfl
          · exact absurd (hm i ((lo + hi) / 2) (by omega) (by omega) hval) hf
    · have : lo = hi := by omega
      subst this
      simp only [bsearchGo, if_neg hlt]
      exact ⟨le_refl _, le_refl _, fun i h1 h2 => absurd h2 (by omega),
        fun h => absurd h (by omega)⟩

theorem search_spec (n : Nat) (f : Nat → Bool)
    (hm : ∀ i j, i ≤ j → j < n → f i = true → f j = true) :
    search n f ≤ n ∧ (∀ i, i < search n f → f i = false) ∧
      (search n f < n → f (search n f) = true) := by
  obtain ⟨h1, h2, h3, h4⟩ :=
    bsearchGo_spec f n hm n 0 n (le_refl n) (by omega) (by omega)
  exact ⟨h2, fun i h => h3 i (by omega) h, h4⟩

theorem seekIdx_mono (keys : List Int) (key : Int)
    (hs : keys.Pairwise (· ≤ ·)) :
    ∀ i j, i ≤ j → j < keys.length →
      (decide (0 ≤ jsCompare (keys.getD i 0) key)) = true →
      (decide (0 ≤ jsCompare (keys.getD j 0) key)) = true := by
  intro i j hij hj hi
  rw [decide_eq_true_iff, jsCompare_nonneg_iff] at hi ⊢
  rcases Nat.lt_or_ge i j with hlt | hge
  · have hij2 : keys.getD i 0 ≤ keys.getD j 0 := by
      rw [List.getD_eq_getElem?_getD, List.getD_eq_getElem?_getD,
        List.getElem?_eq_getElem (by omega), List.getElem?_eq_getElem hj]
      exact List.pairwise_iff_getElem.mp hs i j (by omega) hj hlt
    omega
  · have : i = j := by omega
    subst this
    exact hi

/-- Claim C5 (amended): for every SequenceCursor, advance from the past-end
sentinel idx = length returns false and leaves the cursor unchanged, and
retreat from the before-start sentinel idx = -1 returns false and leaves the
cursor unchanged.  (The other two sentinel combinations asserted by the
original claim are refuted at a concrete cursor by the counterexample
theorem.) -/
theorem cursor_sentinel_noop (c : Cursor) :
    (c.idx = c.length → c.advance = some (false, c)) ∧
    (c.idx = -1 → c.retreat = some (false, c)) := by
  cases c with
  | mk p s i =>
    constructor
    · intro h
      simp only [Cursor.idx, Cursor.length, Cursor.seq] at h
      rw [Cursor.advance, advanceMaybe, if_pos h]
    · intro h
      simp only [Cursor.idx] at h
      subst h
      rw [Cursor.retreat, retreatMaybe.eq_def]
      norm_num

/-- Witness for claim C5 at concrete sentinel cursors over the leaf [1,2]. -/
theorem cursor_sentinel_noop_witness :
    Cursor.advance (.mk none (.leaf [1, 2]) 2) = some (false, .mk none (.leaf [1, 2]) 2)
    ∧ Cursor.retreat (.mk none (.leaf [1, 2]) (-1))
        = some (false, .mk none (.leaf [1, 2]) (-1)) :=
  ⟨(cursor_sentinel_noop (.mk none (.leaf [1, 2]) 2)).1 rfl,
    (cursor_sentinel_noop (.mk none (.leaf [1, 2]) (-1))).2 rfl⟩

/-- Counterexample to claim C5 as stated, on a 5-element leaf: the cursor at
the past-end sentinel idx = 5 does not keep its state with a false return on
retreat (retreat returns true and moves to index 4), and the cursor at the
before-start sentinel idx = -1 does not keep its state with a false return
on advance (advance returns true and moves to index 0).  Each refutes one of
the sentinel/operation combinations the claim asserts beyond the two the
amended claim keeps. -/
theorem cursor_sentinel_counterexample :
    (Cursor.retreat (.mk none (.leaf [10, 11, 12, 13, 14]) 5)
        ≠ some (false, .mk none (.leaf [10, 11, 12, 13, 14]) 5))
    ∧ (Cursor.advance (.mk none (.leaf [10, 11, 12, 13, 14]) (-1))
        ≠ some (false, .mk none (.leaf [10, 11, 12, 13, 14]) (-1)))
    ∧ Cursor.retreat (.mk none (.leaf [10, 11, 12, 13, 14]) 5)
        = some (true, .mk none (.leaf [10, 11, 12, 13, 14]) 4)
    ∧ Cursor.advance (.mk none (.leaf [10, 11, 12, 13, 14]) (-1))
        = some (true, .mk none (.leaf [10, 11, 12, 13, 14]) 0) := by
  have hr : Cursor.retreat (.mk none (.leaf [10, 11, 12, 13, 14]) 5)
      = some (true, .mk none (.leaf [10, 11, 12, 13, 14]) 4) := rfl
  have ha : Cursor.advance (.mk none (.leaf [10, 11, 12, 13, 14]) (-1))
      = some (true, .mk none (.leaf [10, 11, 12, 13, 14]) 0) := rfl
  refine ⟨?_, ?_, hr, ha⟩
  · intro h
    rw [hr] at h
    simp at h
  · intro h
    rw [ha] at h
    simp at h

/-- Claim C6: for a cursor at the past-end sentinel idx = length on a
non-empty leaf, valid is false and retreat returns true, landing on the last
valid index length - 1. -/
theorem cursor_pastEnd_retreat (items : List Int) (h : items ≠ []) :
    Cursor.valid (.mk none (.leaf items) (items.length : Int)) = false
    ∧ Cursor.retreat (.mk none (.leaf items) (items.length : Int))
        = some (true, .mk none (.leaf items) ((items.length : Int) - 1)) := by
  have hl : 0 < items.length := List.length_pos.mpr h
  have hli : (0 : Int) < (items.length : Int) := by exact_mod_cast hl
  constructor
  · simp [Cursor.valid, Cursor.length, Cursor.idx, Cursor.seq, seqLen]
  · simp only [Cursor.retreat, retreatMaybe, if_pos hli]

/-- Witness for claim C6 on the 5-element list of the spec scenario: valid is
false and retreat lands on index 4. -/
theorem cursor_pastEnd_retreat_witness :
    Cursor.valid (.mk none (.leaf [10, 11, 12, 13, 14]) 5) = false
    ∧ Cursor.retreat (.mk none (.leaf [10, 11, 12, 13, 14]) 5)
        = some (true, .mk none (.leaf [10, 11, 12, 13, 14]) 4) := by
  have h := cursor_pastEnd_retreat [10, 11, 12, 13, 14] (by simp)
  exact ⟨h.1, h.2⟩

/-- Claim C7 (amended): for every key-ordered sequence node, seekTo positions
idx at the smallest i whose key compares at least the probe key; when no such
i exists and lastIfMissing is true, then on a non-empty sequence it sets
idx = length - 1 and returns true, while on an empty sequence it fails the
idx greater than zero invariant (a thrown programming error, modelled none)
rather than returning false; otherwise it returns idx < length. -/
theorem seekTo_spec (keys : List Int) (key : Int) (lastIfMissing : Bool)
    (hs : keys.Pairwise (· ≤ ·)) :
    (∀ i, i < seekIdx keys key → keys.getD i 0 < key)
    ∧ (seekIdx keys key < keys.length → key ≤ keys.getD (seekIdx keys key) 0)
    ∧ (seekIdx keys key = keys.length → lastIfMissing = true → keys ≠ [] →
        seekToKeys keys key lastIfMissing = some (true, keys.length - 1))
    ∧ (seekIdx keys key = keys.length → lastIfMissing = true → keys = [] →
        seekToKeys keys key lastIfMissing = none)
    ∧ (seekIdx keys key < keys.length ∨ lastIfMissing = false →
        seekToKeys keys key lastIfMissing
          = some (decide (seekIdx keys key < keys.length), seekIdx keys key)) := by
  obtain ⟨hle, hbelow, hat⟩ :=
    search_spec keys.length (fun i => 0 ≤ jsCompare (keys.getD i 0) key)
      (seekIdx_mono keys key hs)
  refine ⟨?_, ?_, ?_, ?_, ?_⟩
  · intro i hi
    have := hbelow i hi
    rw [decide_eq_false_iff_not, jsCompare_nonneg_iff] at this
    omega
  · intro hlt
    have := hat hlt
    rw [decide_eq_true_iff, jsCompare_nonneg_iff] at this
    exact this
  · intro heq hmiss hne
    have hpos : 0 < keys.length := List.length_pos.mpr hne
    simp only [seekToKeys, heq, hmiss, and_self, if_pos, if_pos hpos]
    have : keys.length - 1 < keys.length := by omega
    simp [this]
  · intro heq hmiss hnil
    subst hnil
    simp only [seekToKeys, List.length_nil] at heq ⊢
    simp [heq, hmiss]
  · intro hcase
    have hcond : ¬ (seekIdx keys key = keys.length ∧ lastIfMissing = true) := by
      rcases hcase with hlt | hfalse
      · intro ⟨h1, _⟩
        omega
      · intro ⟨_, h2⟩
        rw [hfalse] at h2
        exact Bool.false_ne_true h2
    simp only [seekToKeys, if_neg hcond]

/-- Witness for claim C7 on the sorted node [1, 3, 5] probed at key 4 with
lastIfMissing = false: the smallest index with key at least 4 is 2. -/
theorem seekTo_spec_witness :
    [1, 3, 5].Pairwise (fun a b : Int => a ≤ b)
    ∧ seekToKeys [1, 3, 5] 4 false = some (true, 2) := by
  have h := seekTo_spec [1, 3, 5] 4 false (by norm_num)
  refine ⟨by norm_num, ?_⟩
  have h5 := h.2.2.2.2 (Or.inr rfl)
  rw [h5]
  rfl

/-- Counterexample to claim C7 as stated: on an empty sequence with
lastIfMissing = true, seekTo does not return false; it trips the
invariant(idx greater than 0) programming-error check (modelled none). -/
theorem seekTo_empty_counterexample :
    seekToKeys [] 5 true = none ∧ ∀ b i, seekToKeys [] 5 true ≠ some (b, i) := by
  constructor
  · rfl
  · intro b i h
    rw [show seekToKeys [] 5 true = none from rfl] at h
    exact Option.noConfusion h

mutual
theorem flattenS_length : (s : MSeq) → (flattenS s).length = numLeavesS s
  | .leaf _ => rfl
  | .meta cs => flattenL_length cs
theorem flattenL_length : (cs : List MSeq) → (flattenL cs).length = numLeavesL cs
  | [] => rfl
  | c :: cs => by
    simp only [flattenL, numLeavesL, List.length_append, flattenS_length c,
      flattenL_length cs]
end

theorem numLeavesL_take_mono (cs : List MSeq) (m n : Nat) (h : m ≤ n) :
    numLeavesL (cs.take m) ≤ numLeavesL (cs.take n) := by
  induction cs generalizing m n with
  | nil => simp
  | cons c cs ih =>
    cases m with
    | zero => simp [numLeavesL]
    | succ m =>
      cases n with
      | zero => omega
      | succ n =>
        simp only [List.take_succ_cons, numLeavesL]
        have := ih m n (by omega)
        omega

theorem numLeavesL_take_get (cs : List MSeq) (r : Nat) (child : MSeq)
    (h : cs[r]? = some child) :
    numLeavesL (cs.take (r + 1)) = numLeavesL (cs.take r) + numLeavesS child := by
  induction cs generalizing r with
  | nil => simp at h
  | cons c cs ih =>
    cases r with
    | zero =>
      simp only [List.getElem?_cons_zero, Option.some.injEq] at h
      subst h
      simp [numLeavesL, List.take_succ_cons]
    | succ r =>
      simp only [List.getElem?_cons_succ] at h
      simp only [List.take_succ_cons, numLeavesL, ih r h]
      omega

theorem flattenL_decomp (cs : List MSeq) (r : Nat) (child : MSeq)
    (h : cs[r]? = some child) :
    flattenL cs
      = flattenL (cs.take r) ++ flattenS child ++ flattenL (cs.drop (r + 1)) := by
  induction cs generalizing r with
  | nil => simp at h
  | cons c cs ih =>
    cases r with
    | zero =>
      simp only [List.getElem?_cons_zero, Option.some.injEq] at h
      subst h
      simp [flattenL]
    | succ r =>
      simp only [List.getElem?_cons_succ] at h
      simp only [List.take_succ_cons, List.drop_succ_cons, flattenL, ih r h]
      simp [List.append_assoc]

theorem drop_append_long (pre l : List Int) (j : Nat) :
    (pre ++ l).drop (pre.length + j) = l.drop j := by
  induction pre with
  | nil => simp
  | cons x xs ih =>
    simp only [List.cons_append, List.length_cons, Nat.succ_add, List.drop_succ_cons]
    exact ih

theorem sizeS_le_of_mem (cs : List MSeq) (c : MSeq) (h : c ∈ cs) :
    sizeS c ≤ sizeL cs := by
  induction cs with
  | nil => simp at h
  | cons x xs ih =>
    rcases List.mem_cons.mp h with rfl | h
    · simp only [sizeL]
      omega
    · have := ih h
      simp only [sizeL]
      omega

theorem cursorLeafGo_spec (fuel : Nat) :
    ∀ (s : MSeq) (pos : Nat), sizeS s < fuel → pos < numLeavesS s →
    ∃ items j pre suf, cursorLeafGo fuel s pos = some (items, j)
      ∧ flattenS s = pre ++ items ++ suf
      ∧ pre.length + j = pos ∧ j < items.length := by
  induction fuel with
  | zero =>
    intro s pos hsz hpos
    exact absurd hsz (by omega)
  | succ fuel ih =>
    intro s pos hsz hpos
    cases s with
    | leaf items =>
      have hm : ∀ i j, i ≤ j → j < items.length →
          (decide (pos < cumLeaves (.leaf items) i)) = true →
          (decide (pos < cumLeaves (.leaf items) j)) = true := by
        intro i j hij hj hi
        rw [decide_eq_true_iff] at hi ⊢
        simp only [cumLeaves] at *
        omega
      obtain ⟨hle, hbelow, hat⟩ :=
        search_spec (seqLen (.leaf items))
          (fun i => decide (pos < cumLeaves (.leaf items) i))
          (by simpa [seqLen] using hm)
      set r := search (seqLen (.leaf items))
        (fun i => decide (pos < cumLeaves (.leaf items) i)) with hr
      have hnum : numLeavesS (.leaf items) = items.length := rfl
      have hrlt : r < items.length := by
        rcases Nat.lt_or_ge r items.length with h | h
        · exact h
        · have hreq : r = items.length := by
            have : seqLen (.leaf items) = items.length := rfl
            omega
          have := hbelow pos (by omega)
          rw [decide_eq_false_iff_not] at this
          simp only [cumLeaves] at this
          omega
      have hrpos : r = pos := by
        have h1 := hat (by simpa [seqLen] using hrlt)
        rw [decide_eq_true_iff] at h1
        simp only [cumLeaves] at h1
        rcases Nat.eq_zero_or_pos r with h0 | h0
        · omega
        · have h2 := hbelow (r - 1) (by omega)
          rw [decide_eq_false_iff_not] at h2
          simp only [cumLeaves] at h2
          omega
      have hidx : advanceToOffsetIdx (.leaf items) pos = pos := by
        simp only [advanceToOffsetIdx, isMetaS, Bool.false_and, if_neg]
        rw [← hr, hrpos]
        simp
      refine ⟨items, pos, [], [], ?_, by simp [flattenS], by simp, by omega⟩
      simp only [cursorLeafGo, hidx]
    | meta cs =>
      have hm : ∀ i j, i ≤ j → j < cs.length →
          (decide (pos < cumLeaves (.meta cs) i)) = true →
          (decide (pos < cumLeaves (.meta cs) j)) = true := by
        intro i j hij hj hi
        rw [decide_eq_true_iff] at hi ⊢
        have := numLeavesL_take_mono cs (i + 1) (j + 1) (by omega)
        simp only [cumLeaves] at *
        omega
      obtain ⟨hle, hbelow, hat⟩ :=
        search_spec (seqLen (.meta cs))
          (fun i => decide (pos < cumLeaves (.meta cs) i))
          (by simpa [seqLen] using hm)
      set r := search (seqLen (.meta cs))
        (fun i => decide (pos < cumLeaves (.meta cs) i)) with hr
      have hnum : numLeavesS (.meta cs) = numLeavesL cs := rfl
      have hn0 : 0 < cs.length := by
        rcases Nat.eq_zero_or_pos cs.length with h0 | h0
        · have : cs = [] := List.length_eq_zero.mp h0
          subst this
          simp [numLeavesS, numLeavesL] at hpos
        · exact h0
      have hrlt : r < cs.length := by
        rcases Nat.lt_or_ge r cs.length with h | h
        · exact h
        · have hreq : r = cs.length := by
            have : seqLen (.meta cs) = cs.length := rfl
            omega
          have := hbelow (cs.length - 1) (by omega)
          rw [decide_eq_false_iff_not] at this
          simp only [cumLeaves] at this
          rw [show cs.length - 1 + 1 = cs.length from by omega,
            List.take_length] at this
          omega
      have hidx : advanceToOffsetIdx (.meta cs) pos = r := by
        simp only [advanceToOffsetIdx, isMetaS, Bool.true_and, ← hr]
        rw [if_neg]
        simp only [decide_eq_true_iff, seqLen]
        omega
      obtain ⟨child, hchild⟩ : ∃ child, cs[r]? = some child := by
        rw [List.getElem?_eq_getElem hrlt]
        exact ⟨cs[r], rfl⟩
      have hconsumed : advanceToOffsetConsumed (.meta cs) r = numLeavesL (cs.take r) := by
        simp only [advanceToOffsetConsumed]
        rcases Nat.eq_zero_or_pos r with h0 | h0
        · simp [h0, numLeavesL]
        · rw [if_pos h0]
          simp only [cumLeaves]
          rw [show r - 1 + 1 = r from by omega]
      have hcons_le : numLeavesL (cs.take r) ≤ pos := by
        rcases Nat.eq_zero_or_pos r with h0 | h0
        · simp [h0, numLeavesL]
        · have := hbelow (r - 1) (by omega)
          rw [decide_eq_false_iff_not] at this
          simp only [cumLeaves] at this
          rw [show r - 1 + 1 = r from by omega] at this
          omega
      have hat_r := hat (by simpa [seqLen] using hrlt)
      rw [decide_eq_true_iff] at hat_r
      simp only [cumLeaves] at hat_r
      rw [numLeavesL_take_get cs r child hchild] at hat_r
      have hpos2 : pos - numLeavesL (cs.take r) < numLeavesS child := by omega
      have hsz2 : sizeS child < fuel := by
        have hmem : child ∈ cs := List.getElem?_mem hchild
        have h1 := sizeS_le_of_mem cs child hmem
        have h2 : sizeS (MSeq.meta cs) = 1 + sizeL cs := rfl
        omega
      obtain ⟨items, j, pre_c, suf_c, hcl, hflat_c, hlen_c, hj⟩ :=
        ih child (pos - numLeavesL (cs.take r)) hsz2 hpos2
      refine ⟨items, j, flattenL (cs.take r) ++ pre_c,
        suf_c ++ flattenL (cs.drop (r + 1)), ?_, ?_, ?_, hj⟩
      · simp only [cursorLeafGo, hidx, hchild, hconsumed]
        exact hcl
      · have hdec := flattenL_decomp cs r child hchild
        simp only [flattenS]
        rw [hdec, hflat_c]
        simp [List.append_assoc]
      · have hpre_len : (flattenL (cs.take r)).length = numLeavesL (cs.take r) :=
          flattenL_length _
        simp only [List.length_append]
        omega

theorem cursorLeaf_spec (s : MSeq) (pos : Nat) (hpos : pos < numLeavesS s) :
    ∃ items j pre suf, cursorLeaf s pos = some (items, j)
      ∧ flattenS s = pre ++ items ++ suf
      ∧ pre.length + j = pos ∧ j < items.length :=
  cursorLeafGo_spec (sizeS s + 1) s pos (by omega) hpos

theorem drop_prefix_append (l₁ l₂ : List Int) (n : Nat) :
    l₁.drop n <+: (l₁ ++ l₂).drop n := by
  induction l₁ generalizing n with
  | nil =>
    simp
  | cons x xs ih =>
    cases n with
    | zero => simp
    | succ n => simpa using ih n

theorem blobRead_spec (s : MSeq) (pos : Nat) (hpos : pos < numLeavesS s) :
    ∃ bytes, blobRead s pos = some bytes ∧ bytes ≠ []
      ∧ bytes <+: (flattenS s).drop pos := by
  obtain ⟨items, j, pre, suf, hcl, hflat, hlen, hj⟩ := cursorLeaf_spec s pos hpos
  have hsplit : (flattenS s).drop pos = (items ++ suf).drop j := by
    rw [hflat, List.append_assoc, ← hlen, drop_append_long]
  refine ⟨items.drop j, ?_, ?_, ?_⟩
  · simp only [blobRead, if_pos hpos, hcl]
    rcases Nat.eq_zero_or_pos j with h0 | h0
    · simp [h0]
    · rw [if_neg (by omega), if_pos hj]
  · rw [Ne, List.drop_eq_nil_iff]
    omega
  · rw [hsplit]
    exact drop_prefix_append items suf j

/-- Claim C8: BlobReader.seek(offset, whence) sets the absolute position to
offset when whence = 0, to the current position plus offset when whence = 1,
and to the blob length plus offset when whence = 2, failing fast (none) when
the resulting position is negative; and reading at any valid absolute
position p of any blob tree yields a non-empty run of bytes that is a prefix
of the logical byte sequence from p on, i.e. the read starts exactly at the
new position. -/
theorem blob_reader_seek_read (pos len offset : Int) (s : MSeq) (p : Nat)
    (hp : p < numLeavesS s) :
    blobSeekAbs pos len offset 0 = (if offset < 0 then none else some offset)
    ∧ blobSeekAbs pos len offset 1
        = (if pos + offset < 0 then none else some (pos + offset))
    ∧ blobSeekAbs pos len offset 2
        = (if len + offset < 0 then none else some (len + offset))
    ∧ ∃ bytes, blobRead s p = some bytes ∧ bytes ≠ []
        ∧ bytes <+: (flattenS s).drop p :=
  ⟨rfl, rfl, rfl, blobRead_spec s p hp⟩

set_option maxRecDepth 10000 in
/-- Witness for claim C8 on the 1000-byte blob holding bytes 0..999:
seek(500, 0) resolves to position 500 and the following read starts with
byte 500; seek(-100, 2) resolves to 900 and the read starts with byte 900;
seek(-5, 0) is a programming error. -/
theorem blob_reader_seek_read_witness :
    blobSeekAbs 0 1000 500 0 = some 500
    ∧ blobSeekAbs 0 1000 (-100) 2 = some 900
    ∧ blobSeekAbs 0 1000 (-5) 0 = none
    ∧ (∃ bytes, blobRead (.leaf ((List.range 1000).map Int.ofNat)) 500
          = some bytes ∧ bytes ≠ []
          ∧ bytes <+: (flattenS (.leaf ((List.range 1000).map Int.ofNat))).drop 500)
    ∧ (blobRead (.leaf ((List.range 1000).map Int.ofNat)) 500).map List.head?
        = some (some 500)
    ∧ (blobRead (.leaf ((List.range 1000).map Int.ofNat)) 900).map List.head?
        = some (some 900) := by
  have h := blob_reader_seek_read 0 1000 (-100)
    (.leaf ((List.range 1000).map Int.ofNat)) 500 (by decide)
  refine ⟨rfl, ?_, rfl, h.2.2.2, by rfl, by rfl⟩
  rw [h.2.2.1]
  norm_num

theorem descend_ok (t : MSeq) (h : chainOk t = true) :
    ∃ s, descendCanonical t = some s ∧ canonicalShape s ∧ SingleChain t s := by
  induction t using descendCanonical.induct with
  | case1 items => exact ⟨.leaf items, rfl, trivial, .refl _⟩
  | case2 => simp [chainOk] at h
  | case3 t ih =>
    obtain ⟨s, h1, h2, h3⟩ := ih (by simpa [chainOk] using h)
    exact ⟨s, by simpa [descendCanonical] using h1, h2, .step t s h3⟩
  | case4 t u ts => exact ⟨_, rfl, by simp [canonicalShape], .refl _⟩

/-- Claim C4: when Done reaches the chunker whose buffer holds every item of
the top level, it returns the buffer as the root if the chunker is a leaf
chunker or the buffer holds at least 2 entries; when a non-leaf chunker holds
exactly one meta tuple, Done instead runs the canonical descent, which
returns the first sequence along the single-child meta chain that is a leaf
or a meta sequence holding more than one tuple. -/
theorem chunker_done_root (items : List Int) (ts : List MSeq) (t : MSeq)
    (hts : 2 ≤ ts.length) (hok : chainOk t = true) :
    doneRoot (.leafTop items) = some (.leaf items)
    ∧ doneRoot (.metaTop ts) = some (.meta ts)
    ∧ doneRoot (.metaTop [t]) = descendCanonical t
    ∧ ∃ s, descendCanonical t = some s ∧ canonicalShape s ∧ SingleChain t s := by
  refine ⟨rfl, ?_, ?_, descend_ok t hok⟩
  · simp only [doneRoot]
    rw [if_pos (by omega)]
  · simp only [doneRoot]
    rw [if_neg (by simp)]

/-- Witness for claim C4: a two-tuple meta buffer is emitted as-is, and the
single-tuple chain meta-meta-leaf descends to the leaf. -/
theorem chunker_done_root_witness :
    2 ≤ ([MSeq.leaf [1], MSeq.leaf [2]] : List MSeq).length
    ∧ chainOk (.meta [.meta [.leaf [5]]]) = true
    ∧ doneRoot (.metaTop [MSeq.leaf [1], MSeq.leaf [2]])
        = some (.meta [MSeq.leaf [1], MSeq.leaf [2]])
    ∧ doneRoot (.metaTop [.meta [.meta [.leaf [5]]]]) = some (.leaf [5]) := by
  have h := chunker_done_root [1, 2] [MSeq.leaf [1], MSeq.leaf [2]]
    (.meta [.meta [.leaf [5]]]) (by norm_num) rfl
  refine ⟨by norm_num, rfl, h.2.1, ?_⟩
  rw [h.2.2.1]
  rfl

theorem getD_lt_of_pairwise_lt (keys : List Int) (hs : keys.Pairwise (· < ·))
    (i j : Nat) (hij : i < j) (hj : j < keys.length) :
    keys.getD i 0 < keys.getD j 0 := by
  rw [List.getD_eq_getElem?_getD, List.getD_eq_getElem?_getD,
    List.getElem?_eq_getElem (by omega), List.getElem?_eq_getElem hj]
  exact List.pairwise_iff_getElem.mp hs i j (by omega) hj hij

theorem seekIdx_eq_of_key (keys : List Int) (k : Int) (j : Nat) (hj : j < keys.length)
    (hs : keys.Pairwise (· < ·)) (hkey : keys.getD j 0 = k) :
    seekIdx keys k = j := by
  have hsle : keys.Pairwise (fun a b : Int => a ≤ b) := hs.imp fun h => le_of_lt h
  obtain ⟨hle, hbelow, hat⟩ :=
    search_spec keys.length (fun i => 0 ≤ jsCompare (keys.getD i 0) k)
      (seekIdx_mono keys k hsle)
  have hunf : seekIdx keys k
      = search keys.length (fun i => 0 ≤ jsCompare (keys.getD i 0) k) := rfl
  rw [hunf]
  rcases Nat.lt_trichotomy
      (search keys.length (fun i => 0 ≤ jsCompare (keys.getD i 0) k)) j
    with hlt | heq | hgt
  · have h1 := hat (by omega)
    rw [decide_eq_true_iff, jsCompare_nonneg_iff] at h1
    have h2 := getD_lt_of_pairwise_lt keys hs _ j hlt hj
    omega
  · exact heq
  · have h1 := hbelow j hgt
    rw [decide_eq_false_iff_not, jsCompare_nonneg_iff] at h1
    omega

theorem mapSet_self {V : Type} [DecidableEq V]
    (entries : List (Int × V)) (k : Int) (v : V)
    (hs : entries.Pairwise (fun p q => p.1 < q.1)) (hmem : (k, v) ∈ entries) :
    mapSet entries k v = .self := by
  obtain ⟨⟨j, hj⟩, hget⟩ := List.mem_iff_get.mp hmem
  have hkeys : (entries.map Prod.fst).Pairwise (· < ·) := (List.pairwise_map).mpr hs
  have hjlen : j < (entries.map Prod.fst).length := by simpa using hj
  have hkey : (entries.map Prod.fst).getD j 0 = k := by
    rw [List.getD_eq_getElem?_getD, List.getElem?_eq_getElem hjlen]
    simp only [Option.getD_some, List.getElem_map]
    rw [show entries[j] = (k, v) from (List.get_eq_getElem entries ⟨j, hj⟩).symm.trans hget]
  have hidx : mapCursorIdx entries k = j :=
    seekIdx_eq_of_key (entries.map Prod.fst) k j hjlen hkeys hkey
  simp only [mapSet, hidx, dif_pos hj, hget]
  simp

theorem mapDelete_self {V : Type} (entries : List (Int × V)) (k : Int)
    (habs : k ∉ entries.map Prod.fst) :
    mapDelete entries k = .self := by
  by_cases h : mapCursorIdx entries k < entries.length
  · have hne : (entries.get ⟨mapCursorIdx entries k, h⟩).1 ≠ k := by
      intro heq
      apply habs
      rw [List.mem_map]
      exact ⟨entries.get ⟨mapCursorIdx entries k, h⟩,
        List.get_mem entries (mapCursorIdx entries k) h, heq⟩
    simp only [mapDelete, dif_pos h, if_neg hne]
  · simp only [mapDelete, dif_neg h]

theorem setAdd_self (s : List Int) (x : Int)
    (hs : s.Pairwise (· < ·)) (hmem : x ∈ s) :
    setAdd s x = .self := by
  obtain ⟨⟨j, hj⟩, hget⟩ := List.mem_iff_get.mp hmem
  have hkey : s.getD j 0 = x := by
    rw [List.getD_eq_getElem?_getD, List.getElem?_eq_getElem hj]
    simpa [← List.get_eq_getElem] using hget
  have hidx : seekIdx s x = j := seekIdx_eq_of_key s x j hj hs hkey
  simp only [setAdd, hidx, dif_pos hj, hget]
  simp

/-- Claim C9: on a Map whose entries are strictly ordered by key, set(k, v)
with k present at value v returns the map itself, delete(k) with k absent
returns the map itself, and on a Set, add of an existing member returns the
set itself; no error is raised and nothing is spliced in any of the three
cases. -/
theorem benign_mutations_self {V : Type} [DecidableEq V]
    (entries : List (Int × V)) (k kd : Int) (v : V) (s : List Int) (x : Int)
    (hs : entries.Pairwise (fun p q => p.1 < q.1))
    (hss : s.Pairwise (· < ·)) :
    ((k, v) ∈ entries → mapSet entries k v = .self)
    ∧ (kd ∉ entries.map Prod.fst → mapDelete entries kd = .self)
    ∧ (x ∈ s → setAdd s x = .self) :=
  ⟨fun hmem => mapSet_self entries k v hs hmem,
    fun habs => mapDelete_self entries kd habs,
    fun hmem => setAdd_self s x hss hmem⟩

/-- Witness for claim C9 on the map (1 maps to 10, 2 maps to 20) and the set
(1, 3): re-setting 2 to 20, deleting absent 5 and re-adding member 3 all
return self. -/
theorem benign_mutations_self_witness :
    mapSet [((1 : Int), (10 : Int)), (2, 20)] 2 20 = .self
    ∧ mapDelete [((1 : Int), (10 : Int)), (2, 20)] 5 = .self
    ∧ setAdd [1, 3] 3 = .self := by
  have h := benign_mutations_self [((1 : Int), (10 : Int)), (2, 20)] 2 5 20 [1, 3] 3
    (by norm_num [List.pairwise_cons]) (by norm_num [List.pairwise_cons])
  exact ⟨h.1 (by norm_num), h.2.1 (by norm_num), h.2.2 (by norm_num)⟩

theorem diff_no_modified (a b : List Int) : (orderedDiff id id a b).2.2 = [] := by
  induction a, b using orderedDiff.induct id id with
  | case1 bs => simp [orderedDiff]
  | case2 a as => simp [orderedDiff]
  | case3 a as b bs h r =>
    simp only [orderedDiff]
    rw [if_pos (by simpa using h)]
    simpa using r
  | case4 a as b bs h1 h2 r =>
    simp only [orderedDiff]
    rw [if_neg (by simpa using h1), if_pos (by simpa using h2)]
    simpa using r
  | case5 a as b bs h1 h2 hv r =>
    simp only [orderedDiff]
    rw [if_neg (by simpa using h1), if_neg (by simpa using h2),
      if_pos (by simpa using hv)]
    simpa using r
  | case6 a as b bs h1 h2 hv r =>
    simp only [id] at h1 h2 hv
    omega

/-- Claim C10: the ordered diff of two sets (where each item is its own key
and value) never emits a modified entry, so the assertion in Set.diff cannot
fire and diff always returns the pair [added, removed]. -/
theorem set_diff_no_modified (a b : List Int) :
    (orderedDiff id id a b).2.2 = []
    ∧ setDiff a b = some ((orderedDiff id id a b).1, (orderedDiff id id a b).2.1) := by
  have h := diff_no_modified a b
  exact ⟨h, by simp [setDiff, h]⟩

/-- Claim C3: for every input entry array, the Map constructor (buildMapData)
sorts the entries by key and removes duplicate keys with the later duplicate
in input order winning: the resulting iteration order is strictly increasing
by key, the size equals the number of distinct keys, and the entry found for
any key is the last input entry with that key.  In particular
new Map([[1,'a'],[1,'b']]) has a single entry [1,'b'] (so get(1) = 'b' and
size = 1), and the analogous ordered-uniqueness property (strictly increasing
iteration, size = number of distinct values) holds for Set construction. -/
theorem buildMapData_ordered_unique_later_wins {V : Type}
    (kvs : List (Int × V)) (k : Int) (vs : List Int) (a b : V) :
    (buildMapData kvs).Pairwise (fun p q => p.1 < q.1)
    ∧ (buildMapData kvs).length = (kvs.map Prod.fst).toFinset.card
    ∧ findEntry k (buildMapData kvs) = lastEntry k kvs
    ∧ (buildSetData vs).Pairwise (fun x y => x < y)
    ∧ (buildSetData vs).length = vs.toFinset.card
    ∧ buildMapData [(1, a), (1, b)] = [(1, b)] := by
  refine ⟨buildMapData_pairwise kvs, sortDedup_length Prod.fst kvs,
    buildMapData_findEntry kvs k, sortDedup_pairwise_lt id vs, ?_,
    buildMapData_dup_example a b⟩
  have h := sortDedup_length id vs
  rwa [List.map_id] at h


/-- Claim C1 evaluated at the failing input (code bug): with a hasher that
never crosses a boundary, the bulk history new([7,7,8]) and the splice
history new([7,8]).splice(0,0,7) produce the same logical item sequence
[7,7,8], yet the Go chunker emits different root chunks: bulk appends merge
the two adjacent 7s into a Repeat entry (2,7) through the List run-length
branch of Append, while the entries replayed by finalizeCursor go through
appendEntry, which never merges, leaving (1,7),(1,7).  Different entries
serialize to different chunk bytes, so the root hashes differ and the
history-independence the spec (and the code's own XXX comment) requires is
violated. -/
theorem chunker_history_dependent :
    expandEntries (bulkListEntries neverBoundary [7, 7, 8])
      = expandEntries
          (spliceListEntries neverBoundary (bulkListEntries neverBoundary [7, 8]) 0 [7] 0)
    ∧ bulkListEntries neverBoundary [7, 7, 8]
        ≠ spliceListEntries neverBoundary (bulkListEntries neverBoundary [7, 8]) 0 [7] 0
    ∧ bulkListEntries neverBoundary [7, 7, 8] = [(2, 7), (1, 8)]
    ∧ spliceListEntries neverBoundary (bulkListEntries neverBoundary [7, 8]) 0 [7] 0
        = [(1, 7), (1, 7), (1, 8)] :=
  ⟨rfl, by decide, rfl, rfl⟩

/-- Claim C2 (spec-modelled chunkSequence): removing the element at a valid
index i of a List and re-inserting the removed value at i restores the
logical contents exactly, hence — the chunked tree being a deterministic
function of the logical contents, per the spec's history-independence of
chunkSequence — the same root; includes the spec scenario on
[10,11,12,13,14] at index 2. -/
theorem list_splice_round_trip (bLeaf : List Int → Bool)
    (bMeta : List MSeq → Bool) (c : List Int) (i : Nat) (hi : i < c.length) :
    listSplice (listSplice c i 1 []) i 0 [listGet c i] = c
    ∧ buildTree bLeaf bMeta (listSplice (listSplice c i 1 []) i 0 [listGet c i])
        = buildTree bLeaf bMeta c
    ∧ listSplice [10, 11, 12, 13, 14] 2 1 [] = [10, 11, 13, 14]
    ∧ listSplice [10, 11, 13, 14] 2 0 [12] = [10, 11, 12, 13, 14] := by
  have hget : listGet c i = c.get ⟨i, hi⟩ := by
    show c.getD i 0 = c.get ⟨i, hi⟩
    rw [List.getD_eq_getElem?_getD, List.getElem?_eq_getElem hi]
    rfl
  have hlen : (c.take i).length = i := by
    rw [List.length_take]
    omega
  have hmain : listSplice (listSplice c i 1 []) i 0 [listGet c i] = c := by
    simp only [listSplice, List.append_nil, List.nil_append, Nat.add_zero]
    rw [List.take_left' hlen, List.drop_left' hlen, hget, List.get_eq_getElem,
      List.append_assoc, List.singleton_append, List.getElem_cons_drop c i hi,
      List.take_append_drop]
  exact ⟨hmain, by rw [hmain], by decide, by decide⟩

/-- Witness for claim C2 at the spec scenario: the 5-element list
[10,11,12,13,14], index 2, with trivial chunking parameters. -/
theorem list_splice_round_trip_witness :
    2 < ([10, 11, 12, 13, 14] : List Int).length
    ∧ listSplice (listSplice [10, 11, 12, 13, 14] 2 1 []) 2 0
          [listGet [10, 11, 12, 13, 14] 2] = [10, 11, 12, 13, 14]
    ∧ buildTree neverBoundary (fun _ => false)
          (listSplice (listSplice [10, 11, 12, 13, 14] 2 1 []) 2 0
            [listGet [10, 11, 12, 13, 14] 2])
        = buildTree neverBoundary (fun _ => false) [10, 11, 12, 13, 14] := by
  have h := list_splice_round_trip neverBoundary (fun _ => false)
    [10, 11, 12, 13, 14] 2 (by norm_num)
  exact ⟨by norm_num, h.1, h.2.1⟩

end Noms
